import Mathlib

/-!
Verification of `scripts/generate-abbreviations.py`.

The script extracts the Agda input-method translation table by running Emacs
in batch mode with an embedded Elisp dump routine, parses the dumped JSON,
post-processes it (strips the leading backslash decoration from keys, drops
whitespace-only keys, sorts) and serializes it to `abbreviations.json`.

We embed the pipeline shallowly:
  * Python `dict`s become association lists (`List (String × List String)`)
    with insertion-order upsert semantics;
  * Python string truthiness is non-emptiness, and `str.strip()` strips the
    Python (Unicode) whitespace set from both ends;
  * the Elisp dump routine (`DUMP_ELISP`) becomes `dumpEntry`/`dumpTable`;
  * `postprocess` becomes `postprocess` below;
  * `json.dump(..., ensure_ascii=False, indent=2, sort_keys=True)` and
    `json.loads` (Python standard library, external to the repository)
    become `serializeArtifact` and `parseArtifact`, modelling the documented
    behaviour of Python's `json` module on objects of arrays of strings.
-/

/-- The Python (Unicode) whitespace set used by `str.strip()` / `str.isspace()`:
tab, LF, VT, FF, CR, the four information separators 0x1c–0x1f, space,
NEL (0x85), no-break space (0xa0), and the Unicode `Zs` / line- and
paragraph-separator characters. -/
def pyIsSpace (c : Char) : Bool :=
  let n := c.toNat
  n == 0x09 || n == 0x0a || n == 0x0b || n == 0x0c || n == 0x0d ||
  (0x1c ≤ n && n ≤ 0x1f) || n == 0x20 || n == 0x85 || n == 0xa0 ||
  n == 0x1680 || (0x2000 ≤ n && n ≤ 0x200a) || n == 0x2028 || n == 0x2029 ||
  n == 0x202f || n == 0x205f || n == 0x3000

/-- `str.strip()` on the underlying character list: remove leading and
trailing Python whitespace. -/
def pyStripList (cs : List Char) : List Char :=
  ((cs.dropWhile pyIsSpace).reverse.dropWhile pyIsSpace).reverse

/-- Python `s.strip()`. -/
def pyStrip (s : String) : String := String.mk (pyStripList s.data)

/-- `key[1:] if key.startswith("\\") else key` (generate-abbreviations.py,
line 148): remove one leading backslash if present. -/
def stripKey (key : String) : String :=
  match key.data with
  | '\\' :: rest => String.mk rest
  | _ => key

/-- The retention test of `postprocess` (line 149):
`if stripped and stripped.strip():` — Python string truthiness is
non-emptiness, so the pair is kept iff the stripped key is non-empty and
contains a non-whitespace character. -/
def keepKey (s : String) : Bool :=
  !s.data.isEmpty && !(pyStrip s).data.isEmpty

/-- Python `dict` assignment `d[k] = v` on an association list: if the key is
present, replace its value in place (Python dicts keep the original insertion
position); otherwise append the new pair at the end. -/
def upsert (m : List (String × List String)) (k : String) (v : List String) :
    List (String × List String) :=
  match m with
  | [] => [(k, v)]
  | (k', v') :: rest => if k' = k then (k, v) :: rest else (k', v') :: upsert rest k v

/-- One iteration of the loop of `postprocess` (lines 146–154): strip the
decoration from the key and store the pair when the key survives the
whitespace test. -/
def cleanedStep (acc : List (String × List String)) (p : String × List String) :
    List (String × List String) :=
  let stripped := stripKey p.1
  if keepKey stripped then upsert acc stripped p.2 else acc

/-- The `cleaned` dict built by the loop of `postprocess` (lines 145–154). -/
def cleanedOf (raw : List (String × List String)) : List (String × List String) :=
  raw.foldl cleanedStep []

/-- Ordering used for `dict(sorted(cleaned.items()))` (line 155).  Python
sorts the `(key, value)` tuples lexicographically; since the keys of a dict
are pairwise distinct the comparison never reaches the values, so sorting by
key alone is exactly equivalent. -/
def keyLe (a b : String × List String) : Prop := a.1 ≤ b.1

instance : DecidableRel keyLe :=
  fun a b => decidable_of_iff (a.1.data ≤ b.1.data) String.le_iff_toList_le.symm

instance : IsTotal (String × List String) keyLe :=
  ⟨fun a b => le_total a.1 b.1⟩

instance : IsTrans (String × List String) keyLe :=
  ⟨fun _ _ _ h h' => le_trans h h'⟩

/-- `postprocess` (lines 143–155): strip the leading backslash from keys,
drop empty / whitespace-only keys, and sort by key. -/
def postprocess (raw : List (String × List String)) : List (String × List String) :=
  List.insertionSort keyLe (cleanedOf raw)

/-- The single-printable-ASCII test of the Elisp dump routine
(`DUMP_ELISP`, lines 56–59): the translation is one character whose code
point lies in `0x20 … 0x7e`. -/
def isSinglePrintableAscii (s : String) : Bool :=
  match s.data with
  | [c] => 0x20 ≤ c.toNat && c.toNat ≤ 0x7e
  | _ => false

/-- The per-pair body of the Elisp dump routine (lines 53–62): keep the pair
when the key is non-empty and the string list is non-empty, remove every
single-printable-ASCII candidate, and emit the pair only when some candidate
survives. -/
def dumpEntry (key : String) (strings : List String) :
    Option (String × List String) :=
  if !key.data.isEmpty && !strings.isEmpty then
    let nonAscii := strings.filter (fun s => !isSinglePrintableAscii s)
    if !nonAscii.isEmpty then some (key, nonAscii) else none
  else none

/-- One `dolist` iteration of the dump routine: `puthash` of the surviving
pair into the hash table (modelled as an upsert; the table is re-sorted by
`postprocess` downstream, so the hash table's iteration order is
immaterial). -/
def dumpStep (tbl : List (String × List String)) (p : String × List String) :
    List (String × List String) :=
  match dumpEntry p.1 p.2 with
  | some e => upsert tbl e.1 e.2
  | none => tbl

/-- The hash table built by the dump routine over all raw translation
pairs. -/
def dumpTable (pairs : List (String × List String)) : List (String × List String) :=
  pairs.foldl dumpStep []

/-! ### Serializer and parser

`main` (lines 180–183) writes the table with
`json.dump(cleaned, f, ensure_ascii=False, indent=2, sort_keys=True)`
followed by `f.write("\n")`.  The encoder below reproduces the documented
output of Python's `json` module with those options on an object of arrays
of strings: non-ASCII characters literal, `"` and backslash and control
characters escaped (`\b \f \n \r \t`, otherwise `\u00XX` with lowercase hex
digits), two-space indentation, members sorted by key, items separated by
`,` plus a newline, empty containers printed inline. -/

/-- Escape one character as Python's `json` encoder does with
`ensure_ascii=False`. -/
def escapeChar (c : Char) : List Char :=
  if c = '"' then ['\\', '"']
  else if c = '\\' then ['\\', '\\']
  else if c = '\n' then ['\\', 'n']
  else if c = '\t' then ['\\', 't']
  else if c = '\r' then ['\\', 'r']
  else if c.toNat = 0x08 then ['\\', 'b']
  else if c.toNat = 0x0c then ['\\', 'f']
  else if c.toNat < 0x20 then
    ['\\', 'u', '0', '0', Nat.digitChar (c.toNat / 16), Nat.digitChar (c.toNat % 16)]
  else [c]

/-- A JSON string literal for `s`. -/
def encodeStringChars (s : String) : List Char :=
  '"' :: ((s.data.map escapeChar).flatten ++ ['"'])

/-- The items of a non-empty array, each on its own line indented four
spaces, separated by commas. -/
def encodeItems : List String → List Char
  | [] => []
  | [s] => ' ' :: ' ' :: ' ' :: ' ' :: encodeStringChars s
  | s :: rest =>
    ' ' :: ' ' :: ' ' :: ' ' :: (encodeStringChars s ++ (',' :: '\n' :: encodeItems rest))

/-- A JSON array of strings at member nesting depth. -/
def encodeArray (vs : List String) : List Char :=
  match vs with
  | [] => ['[', ']']
  | _ => '[' :: '\n' :: (encodeItems vs ++ ['\n', ' ', ' ', ']'])

/-- The members of a non-empty object from the first key onwards; each later
member starts on a new line indented two spaces. -/
def encodeMembersTail : List (String × List String) → List Char
  | [] => []
  | [p] => encodeStringChars p.1 ++ (':' :: ' ' :: encodeArray p.2)
  | p :: rest =>
    encodeStringChars p.1 ++ (':' :: ' ' :: encodeArray p.2) ++
      (',' :: '\n' :: ' ' :: ' ' :: encodeMembersTail rest)

/-- A JSON object of arrays of strings, pretty-printed with two-space
indentation. -/
def encodeTable (t : List (String × List String)) : List Char :=
  match t with
  | [] => ['{', '}']
  | _ => '{' :: '\n' :: ' ' :: ' ' :: (encodeMembersTail t ++ ['\n', '}'])

/-- The bytes written to `abbreviations.json` (lines 181–182): the
`sort_keys=True` dump of the table followed by one newline. -/
def serializeArtifact (t : List (String × List String)) : String :=
  String.mk (encodeTable (List.insertionSort keyLe t) ++ ['\n'])

/-- JSON whitespace accepted between tokens by `json.loads`. -/
def jsonWs (c : Char) : Bool :=
  c = ' ' || c = '\t' || c = '\n' || c = '\r'

/-- Skip JSON whitespace. -/
def skipWs (cs : List Char) : List Char := cs.dropWhile jsonWs

/-- Value of one hexadecimal digit (decimal digits, then the two letter
ranges, offset so that `a`/`A` give value ten). -/
def hexVal (c : Char) : Option Nat :=
  let n := c.toNat
  if 48 ≤ n ∧ n ≤ 57 then some (n - 48)
  else if 97 ≤ n ∧ n ≤ 102 then some (n - 87)
  else if 65 ≤ n ∧ n ≤ 70 then some (n - 55)
  else none

/-- Decode one short escape (`\" \\ \/ \n \t \r \b \f`). -/
def unescapeChar (e : Char) : Option Char :=
  if e = '"' then some '"'
  else if e = '\\' then some '\\'
  else if e = '/' then some '/'
  else if e = 'n' then some '\n'
  else if e = 't' then some '\t'
  else if e = 'r' then some '\r'
  else if e = 'b' then some (Char.ofNat 0x08)
  else if e = 'f' then some (Char.ofNat 0x0c)
  else none

/-- Parse the body of a JSON string literal (after the opening quote) up to
and including the closing quote, decoding escapes.  `\uXXXX` escapes are
decoded for scalar values below the surrogate range, which covers every
escape the encoder emits.  The fuel argument only bounds the recursion (it
makes the recursion structural); the top-level caller passes the input
length, which always suffices because every step consumes input. -/
def parseStringBody : Nat → List Char → Option (List Char × List Char)
  | 0, _ => none
  | fuel + 1, cs =>
    match cs with
    | [] => none
    | c :: rest =>
      if c = '"' then some ([], rest)
      else if c = '\\' then
        match rest with
        | [] => none
        | e :: rest1 =>
          if e = 'u' then
            match rest1 with
            | h1 :: h2 :: h3 :: h4 :: rest2 =>
              match hexVal h1, hexVal h2, hexVal h3, hexVal h4 with
              | some a, some b, some c2, some d =>
                let n := ((a * 16 + b) * 16 + c2) * 16 + d
                if n < 0xd800 then
                  match parseStringBody fuel rest2 with
                  | some pr => some (Char.ofNat n :: pr.1, pr.2)
                  | none => none
                else none
              | _, _, _, _ => none
            | _ => none
          else
            match unescapeChar e with
            | some c2 =>
              match parseStringBody fuel rest1 with
              | some pr => some (c2 :: pr.1, pr.2)
              | none => none
            | none => none
      else
        match parseStringBody fuel rest with
        | some pr => some (c :: pr.1, pr.2)
        | none => none

/-- Parse a JSON string literal. -/
def parseJString (fuel : Nat) (cs : List Char) : Option (String × List Char) :=
  match cs with
  | '"' :: rest =>
    match parseStringBody fuel rest with
    | some pr => some (String.mk pr.1, pr.2)
    | none => none
  | _ => none

/-- Parse the comma-separated items of a non-empty array, positioned at the
first item, consuming the closing bracket. -/
def parseArrayItems : Nat → List Char → Option (List String × List Char)
  | 0, _ => none
  | fuel + 1, cs =>
    match parseJString fuel cs with
    | none => none
    | some (s, rest) =>
      match skipWs rest with
      | ',' :: rest2 =>
        match parseArrayItems fuel (skipWs rest2) with
        | some pr => some (s :: pr.1, pr.2)
        | none => none
      | ']' :: rest2 => some ([s], rest2)
      | _ => none

/-- Parse a JSON array of strings. -/
def parseArray (fuel : Nat) (cs : List Char) : Option (List String × List Char) :=
  match cs with
  | '[' :: rest =>
    match skipWs rest with
    | ']' :: rest1 => some ([], rest1)
    | cs1 => parseArrayItems fuel cs1
  | _ => none

/-- Parse the members of a non-empty object, positioned at the first key,
consuming the closing brace. -/
def parseMembers : Nat → List Char → Option (List (String × List String) × List Char)
  | 0, _ => none
  | fuel + 1, cs =>
    match parseJString fuel cs with
    | none => none
    | some (k, rest) =>
      match skipWs rest with
      | ':' :: rest1 =>
        match parseArray fuel (skipWs rest1) with
        | none => none
        | some (vs, rest2) =>
          match skipWs rest2 with
          | ',' :: rest3 =>
            match parseMembers fuel (skipWs rest3) with
            | some pr => some ((k, vs) :: pr.1, pr.2)
            | none => none
          | '}' :: rest3 => some ([(k, vs)], rest3)
          | _ => none
      | _ => none

/-- Parse a JSON object of arrays of strings. -/
def parseTable (fuel : Nat) (cs : List Char) :
    Option (List (String × List String) × List Char) :=
  match cs with
  | '{' :: rest =>
    match skipWs rest with
    | '}' :: rest1 => some ([], rest1)
    | cs1 => parseMembers fuel cs1
  | _ => none

/-- Model of `json.loads` (Python standard library, external to the
repository) restricted to the artifact shape — one object of arrays of
strings, with arbitrary surrounding whitespace and nothing after it. -/
def parseArtifact (s : String) : Option (List (String × List String)) :=
  match parseTable (s.data.length + 1) (skipWs s.data) with
  | some (t, rest) => if (skipWs rest).isEmpty then some t else none
  | none => none

/-- Fuel sufficient for `parseArrayItems` on the encoding of `vs` (used only
in the round-trip lemmas; it is dominated by the encoded length). -/
def itemsFuel : List String → Nat
  | [] => 0
  | v :: vs => v.data.length + 2 + itemsFuel vs

/-- Fuel sufficient for `parseMembers` on the encoding of `t`. -/
def tableFuel : List (String × List String) → Nat
  | [] => 0
  | (k, vs) :: ms => k.data.length + 3 + itemsFuel vs + tableFuel ms

/-! ### Models of `dump_raw_translations` and `main` -/

/-- What the `subprocess.run` call at lines 113–116 can do: either exceed
the 30-second timeout, or complete with an exit status and captured output
channels. -/
inductive EngineResult where
  | timeout
  | completed (returncode : Int) (stdout stderr : String)

/-- The outcome of `dump_raw_translations`: a parsed raw table, or one of
the fatal failures (each `sys.exit(1)` in the source). -/
inductive InvokeOutcome where
  | ok (table : List (String × List String))
  | engineTimeout
  | engineNoOutput
  | malformedOutput (preview : String)
deriving DecidableEq

/-- Lines 123–140: the exit-status check at line 123 has an empty body
(`pass`), so `returncode` is deliberately ignored; the run fails with
`engineNoOutput` exactly when the stripped standard output is empty, and
otherwise the stripped text is parsed as JSON, surfacing the first 500
characters on a parse failure. -/
def handleEngineOutput (returncode : Int) (stdout stderr : String) : InvokeOutcome :=
  let trimmed := pyStrip stdout
  if trimmed.data.isEmpty then InvokeOutcome.engineNoOutput
  else
    match parseArtifact trimmed with
    | some t => InvokeOutcome.ok t
    | none => InvokeOutcome.malformedOutput (String.mk (trimmed.data.take 500))

/-- Filesystem events on the transient dump-routine file. -/
inductive FsEvent where
  | createTemp
  | unlinkTemp
deriving DecidableEq

/-- The `subprocess.run` call inside the `try` block: a timeout raises
(`Except.error`), a completed run returns its result. -/
def runEngine (res : EngineResult) : Except Unit (Int × String × String) :=
  match res with
  | .timeout => .error ()
  | .completed rc out err => .ok (rc, out, err)

/-- `dump_raw_translations` (lines 103–140): the temp file holding the dump
routine is created before the `try` block; the `finally` clause unlinks it
on both the exceptional (timeout) path and the normal path, before the
captured output is examined. -/
def invokerTrace (res : EngineResult) : List FsEvent × InvokeOutcome :=
  let created := [FsEvent.createTemp]
  match runEngine res with
  | .error _ => (created ++ [FsEvent.unlinkTemp], InvokeOutcome.engineTimeout)
  | .ok (rc, out, err) => (created ++ [FsEvent.unlinkTemp], handleEngineOutput rc out err)

/-- Whether the temp file exists after a sequence of filesystem events. -/
def tempFileAlive (events : List FsEvent) : Bool :=
  events.foldl
    (fun _ e =>
      match e with
      | FsEvent.createTemp => true
      | FsEvent.unlinkTemp => false)
    false

/-- One attempt to write `content` at the output path.  `failAfter = none`
models a write that completes; `failAfter = some k` models a filesystem
error after `k` characters have been written — the `with open(path, "w")`
at line 180 has already truncated the file, so the prefix persists. -/
def writeArtifact (fs : Option String) (content : String) (failAfter : Option Nat) :
    Option String × Bool :=
  match failAfter with
  | none => (some content, true)
  | some k => (some (String.mk (content.data.take k)), false)

/-- `main` (lines 158–184): every fatal failure of the locator, the engine
invocation, or JSON parsing calls `sys.exit(1)` before the output path is
opened (`preWriteFailure`); otherwise the normalized table is fully computed
in memory and then streamed to the output file.  Returns the final content
at the output path and whether the process exited successfully. -/
def mainModel (preWriteFailure : Bool) (raw : List (String × List String))
    (failAfter : Option Nat) (fs : Option String) : Option String × Bool :=
  if preWriteFailure then (fs, false)
  else writeArtifact fs (serializeArtifact (postprocess raw)) failAfter

/-! ### Helper lemmas about `upsert`, `cleanedOf` and `postprocess` -/

theorem mem_upsert {m : List (String × List String)} {k : String}
    {v : List String} {q : String × List String} (hq : q ∈ upsert m k v) :
    q = (k, v) ∨ q ∈ m := by
  induction m with
  | nil => simpa [upsert] using hq
  | cons p rest ih =>
    obtain ⟨k', v'⟩ := p
    rw [upsert] at hq
    by_cases hk : k' = k
    · rw [if_pos hk] at hq
      rcases List.mem_cons.mp hq with h | h
      · exact Or.inl h
      · exact Or.inr (List.mem_cons_of_mem _ h)
    · rw [if_neg hk] at hq
      rcases List.mem_cons.mp hq with h | h
      · exact Or.inr (h ▸ List.mem_cons_self _ _)
      · rcases ih h with h' | h'
        · exact Or.inl h'
        · exact Or.inr (List.mem_cons_of_mem _ h')

theorem mem_keys_upsert {m : List (String × List String)} {k a : String}
    {v : List String} :
    a ∈ (upsert m k v).map Prod.fst ↔ a = k ∨ a ∈ m.map Prod.fst := by
  induction m with
  | nil => simp [upsert]
  | cons p rest ih =>
    obtain ⟨k', v'⟩ := p
    rw [upsert]
    by_cases hk : k' = k
    · subst hk
      simp
    · rw [if_neg hk]
      simp only [List.map_cons, List.mem_cons, ih]
      tauto

theorem nodup_keys_upsert {m : List (String × List String)} {k : String}
    {v : List String} (h : (m.map Prod.fst).Nodup) :
    ((upsert m k v).map Prod.fst).Nodup := by
  induction m with
  | nil => simp [upsert]
  | cons p rest ih =>
    obtain ⟨k', v'⟩ := p
    simp only [List.map_cons, List.nodup_cons] at h
    rw [upsert]
    by_cases hk : k' = k
    · subst hk
      rw [if_pos rfl]
      simp only [List.map_cons, List.nodup_cons]
      exact h
    · rw [if_neg hk]
      simp only [List.map_cons, List.nodup_cons]
      refine ⟨fun hmem => ?_, ih h.2⟩
      rcases mem_keys_upsert.mp hmem with h' | h'
      · exact hk h'
      · exact h.1 h'

theorem mem_cleanedStep {acc : List (String × List String)}
    {p q : String × List String} (hq : q ∈ cleanedStep acc p) :
    q ∈ acc ∨ (q.1 = stripKey p.1 ∧ q.2 = p.2 ∧ keepKey q.1 = true) := by
  rw [cleanedStep] at hq
  by_cases hkeep : keepKey (stripKey p.1) = true
  · rw [if_pos hkeep] at hq
    rcases mem_upsert hq with h | h
    · subst h
      exact Or.inr ⟨rfl, rfl, hkeep⟩
    · exact Or.inl h
  · rw [if_neg hkeep] at hq
    exact Or.inl hq

theorem mem_cleanedFold :
    ∀ (raw : List (String × List String)) (acc : List (String × List String))
      (q : String × List String), q ∈ raw.foldl cleanedStep acc →
      q ∈ acc ∨ ∃ p ∈ raw, q.1 = stripKey p.1 ∧ q.2 = p.2 ∧ keepKey q.1 = true
  | [], _, _, hq => Or.inl hq
  | p :: rest, acc, q, hq => by
    rcases mem_cleanedFold rest (cleanedStep acc p) q hq with h | ⟨p', hp', h⟩
    · rcases mem_cleanedStep h with h' | h'
      · exact Or.inl h'
      · exact Or.inr ⟨p, List.mem_cons_self _ _, h'⟩
    · exact Or.inr ⟨p', List.mem_cons_of_mem _ hp', h⟩

theorem nodup_keys_cleanedFold :
    ∀ (raw : List (String × List String)) (acc : List (String × List String)),
      (acc.map Prod.fst).Nodup → ((raw.foldl cleanedStep acc).map Prod.fst).Nodup
  | [], _, h => h
  | p :: rest, acc, h => by
    refine nodup_keys_cleanedFold rest (cleanedStep acc p) ?_
    rw [cleanedStep]
    by_cases hkeep : keepKey (stripKey p.1) = true
    · rw [if_pos hkeep]
      exact nodup_keys_upsert h
    · rwa [if_neg hkeep]

theorem nodup_keys_cleanedOf (raw : List (String × List String)) :
    ((cleanedOf raw).map Prod.fst).Nodup :=
  nodup_keys_cleanedFold raw [] List.nodup_nil

theorem mem_postprocess {raw : List (String × List String)}
    {q : String × List String} : q ∈ postprocess raw ↔ q ∈ cleanedOf raw :=
  List.mem_insertionSort keyLe

theorem postprocess_source {raw : List (String × List String)}
    {q : String × List String} (hq : q ∈ postprocess raw) :
    ∃ p ∈ raw, q.1 = stripKey p.1 ∧ q.2 = p.2 ∧ keepKey q.1 = true := by
  rcases mem_cleanedFold raw [] q (mem_postprocess.mp hq) with h | h
  · cases h
  · exact h

theorem perm_postprocess_cleanedOf (raw : List (String × List String)) :
    List.Perm (postprocess raw) (cleanedOf raw) :=
  List.perm_insertionSort keyLe (cleanedOf raw)

theorem pyStripList_eq_nil {cs : List Char} (h : ∀ c ∈ cs, pyIsSpace c = true) :
    pyStripList cs = [] := by
  unfold pyStripList
  have h1 : cs.dropWhile pyIsSpace = [] := List.dropWhile_eq_nil_iff.mpr (by simpa using h)
  rw [h1]
  rfl

theorem keepKey_eq_false_of_space {s : String} (h : ∀ c ∈ s.data, pyIsSpace c = true) :
    keepKey s = false := by
  have h2 : (pyStrip s).data = [] := by
    show pyStripList s.data = []
    exact pyStripList_eq_nil h
  simp [keepKey, h2]

theorem stripKey_of_no_backslash {k : String} (h : ∀ tl, k.data ≠ '\\' :: tl) :
    stripKey k = k := by
  unfold stripKey
  split
  · rename_i rest heq
    exact absurd heq (h rest)
  · rfl

theorem stripKey_of_backslash {k : String} {tl : List Char} (h : k.data = '\\' :: tl) :
    stripKey k = String.mk tl := by
  unfold stripKey
  rw [h]
  rfl

/-! ### Lemmas about the dump routine -/

theorem dumpEntry_val_nonempty {k : String} {vs : List String} {e : String × List String}
    (h : dumpEntry k vs = some e) : e.2 ≠ [] := by
  unfold dumpEntry at h
  split at h
  · simp only at h
    split at h
    · rename_i hne
      cases h
      simpa using hne
    · cases h
  · cases h

theorem dumpEntry_key {k : String} {vs : List String} {e : String × List String}
    (h : dumpEntry k vs = some e) : e.1 = k := by
  unfold dumpEntry at h
  split at h
  · simp only at h
    split at h
    · cases h
      rfl
    · cases h
  · cases h

theorem dumpEntry_none_of_all_ascii {k : String} {vs : List String}
    (h : vs.all isSinglePrintableAscii = true) : dumpEntry k vs = none := by
  have hfil : vs.filter (fun s => !isSinglePrintableAscii s) = [] :=
    List.filter_eq_nil_iff.mpr (fun a ha => by
      have ha2 := List.all_eq_true.mp h a ha
      simp [ha2])
  unfold dumpEntry
  simp only [hfil]
  split
  · simp
  · rfl

theorem mem_dumpFold :
    ∀ (pairs acc : List (String × List String)) (q : String × List String),
      q ∈ pairs.foldl dumpStep acc →
      q ∈ acc ∨ ∃ p ∈ pairs, dumpEntry p.1 p.2 = some q
  | [], _, _, hq => Or.inl hq
  | p :: rest, acc, q, hq => by
    rcases mem_dumpFold rest (dumpStep acc p) q hq with h | ⟨p', hp', h⟩
    · rw [dumpStep] at h
      cases hde : dumpEntry p.1 p.2 with
      | none =>
        rw [hde] at h
        exact Or.inl h
      | some e =>
        rw [hde] at h
        rcases mem_upsert h with h' | h'
        · refine Or.inr ⟨p, List.mem_cons_self _ _, ?_⟩
          rw [hde, h']
        · exact Or.inl h'
    · exact Or.inr ⟨p', List.mem_cons_of_mem _ hp', h⟩

theorem dumpTable_values_nonempty {pairs : List (String × List String)}
    {q : String × List String} (hq : q ∈ dumpTable pairs) : q.2 ≠ [] := by
  rcases mem_dumpFold pairs [] q hq with h | ⟨p, _, h⟩
  · cases h
  · exact dumpEntry_val_nonempty h

/-! ### Round-trip lemmas for the serializer and parser -/

theorem hexVal_digitChar : ∀ m, m < 16 → hexVal (Nat.digitChar m) = some m := by decide

theorem parseStringBody_roundtrip :
    ∀ (cs : List Char) (fuel : Nat) (rest : List Char), cs.length < fuel →
      parseStringBody fuel ((cs.map escapeChar).flatten ++ ('"' :: rest)) = some (cs, rest)
  | [], fuel, rest, h => by
    obtain ⟨f, rfl⟩ : ∃ f, fuel = f + 1 := ⟨fuel - 1, by omega⟩
    rfl
  | c :: cs, fuel, rest, h => by
    obtain ⟨f, rfl⟩ : ∃ f, fuel = f + 1 := ⟨fuel - 1, by omega⟩
    simp only [List.map_cons, List.flatten_cons, List.append_assoc]
    set T := (cs.map escapeChar).flatten ++ ('"' :: rest) with hT
    have ih := parseStringBody_roundtrip cs f rest
      (by simp only [List.length_cons] at h; omega)
    rw [← hT] at ih
    by_cases h1 : c = '"'
    · subst h1
      show (match parseStringBody f T with
            | some pr => some ('"' :: pr.1, pr.2)
            | none => none) = some ('"' :: cs, rest)
      rw [ih]
    · by_cases h2 : c = '\\'
      · subst h2
        show (match parseStringBody f T with
              | some pr => some ('\\' :: pr.1, pr.2)
              | none => none) = some ('\\' :: cs, rest)
        rw [ih]
      · by_cases h3 : c = '\n'
        · subst h3
          show (match parseStringBody f T with
                | some pr => some ('\n' :: pr.1, pr.2)
                | none => none) = some ('\n' :: cs, rest)
          rw [ih]
        · by_cases h4 : c = '\t'
          · subst h4
            show (match parseStringBody f T with
                  | some pr => some ('\t' :: pr.1, pr.2)
                  | none => none) = some ('\t' :: cs, rest)
            rw [ih]
          · by_cases h5 : c = '\r'
            · subst h5
              show (match parseStringBody f T with
                    | some pr => some ('\r' :: pr.1, pr.2)
                    | none => none) = some ('\r' :: cs, rest)
              rw [ih]
            · by_cases h6 : c.toNat = 0x08
              · have hc : c = Char.ofNat 8 := by rw [← h6, Char.ofNat_toNat]
                subst hc
                show (match parseStringBody f T with
                      | some pr => some (Char.ofNat 8 :: pr.1, pr.2)
                      | none => none) = some (Char.ofNat 8 :: cs, rest)
                rw [ih]
              · by_cases h7 : c.toNat = 0x0c
                · have hc : c = Char.ofNat 12 := by rw [← h7, Char.ofNat_toNat]
                  subst hc
                  show (match parseStringBody f T with
                        | some pr => some (Char.ofNat 12 :: pr.1, pr.2)
                        | none => none) = some (Char.ofNat 12 :: cs, rest)
                  rw [ih]
                · by_cases h8 : c.toNat < 0x20
                  · have hesc : escapeChar c =
                        ['\\', 'u', '0', '0', Nat.digitChar (c.toNat / 16),
                          Nat.digitChar (c.toNat % 16)] := by
                      unfold escapeChar
                      rw [if_neg h1, if_neg h2, if_neg h3, if_neg h4, if_neg h5, if_neg h6,
                        if_neg h7, if_pos h8]
                    rw [hesc]
                    simp only [List.cons_append, List.nil_append]
                    have e1 : hexVal (Nat.digitChar (c.toNat / 16)) = some (c.toNat / 16) :=
                      hexVal_digitChar _ (by omega)
                    have e2 : hexVal (Nat.digitChar (c.toNat % 16)) = some (c.toNat % 16) :=
                      hexVal_digitChar _ (by omega)
                    show (match hexVal '0', hexVal '0', hexVal (Nat.digitChar (c.toNat / 16)),
                            hexVal (Nat.digitChar (c.toNat % 16)) with
                          | some a, some b, some c2, some d =>
                            let n := ((a * 16 + b) * 16 + c2) * 16 + d
                            if n < 0xd800 then
                              match parseStringBody f T with
                              | some pr => some (Char.ofNat n :: pr.1, pr.2)
                              | none => none
                            else none
                          | _, _, _, _ => none) = some (c :: cs, rest)
                    rw [e1, e2]
                    show (if ((0 * 16 + 0) * 16 + c.toNat / 16) * 16 + c.toNat % 16 < 0xd800
                          then
                            match parseStringBody f T with
                            | some pr =>
                              some (Char.ofNat
                                (((0 * 16 + 0) * 16 + c.toNat / 16) * 16 + c.toNat % 16) ::
                                pr.1, pr.2)
                            | none => none
                          else none) = some (c :: cs, rest)
                    have hn : ((0 * 16 + 0) * 16 + c.toNat / 16) * 16 + c.toNat % 16 =
                        c.toNat := by omega
                    rw [hn, if_pos (show c.toNat < 0xd800 by omega), Char.ofNat_toNat, ih]
                  · have hesc : escapeChar c = [c] := by
                      unfold escapeChar
                      rw [if_neg h1, if_neg h2, if_neg h3, if_neg h4, if_neg h5, if_neg h6,
                        if_neg h7, if_neg h8]
                    rw [hesc]
                    simp only [List.cons_append, List.nil_append]
                    simp only [parseStringBody]
                    rw [if_neg h1, if_neg h2, ih]

theorem parseJString_roundtrip (s : String) (fuel : Nat) (rest : List Char)
    (h : s.data.length < fuel) :
    parseJString fuel (encodeStringChars s ++ rest) = some (s, rest) := by
  have hb := parseStringBody_roundtrip s.data fuel rest h
  show (match parseStringBody fuel (((s.data.map escapeChar).flatten ++ ['"']) ++ rest) with
        | some pr => some (String.mk pr.1, pr.2)
        | none => none) = some (s, rest)
  rw [List.append_assoc, List.singleton_append, hb]

theorem skipWs_space_encodeArray (vs : List String) (X : List Char) :
    skipWs (' ' :: (encodeArray vs ++ X)) = encodeArray vs ++ X := by
  cases vs <;> rfl

theorem skipWs_encodeItems (vs : List String) (v : String) (X : List Char) :
    skipWs ('\n' :: (encodeItems (v :: vs) ++ X)) =
      encodeStringChars v ++
        (match vs with
         | [] => X
         | _ => ',' :: '\n' :: (encodeItems vs ++ X)) := by
  cases vs with
  | nil => rfl
  | cons v3 vs3 =>
    have h1 : skipWs ('\n' :: (encodeItems (v :: v3 :: vs3) ++ X)) =
        (encodeStringChars v ++ (',' :: '\n' :: encodeItems (v3 :: vs3))) ++ X := rfl
    rw [h1, List.append_assoc]
    rfl

theorem parseArrayItems_roundtrip :
    ∀ (vs : List String) (v : String) (fuel : Nat) (tail : List Char),
      itemsFuel (v :: vs) ≤ fuel →
      parseArrayItems fuel
        (encodeStringChars v ++
          (match vs with
           | [] => '\n' :: ' ' :: ' ' :: ']' :: tail
           | _ => ',' :: '\n' :: (encodeItems vs ++ ('\n' :: ' ' :: ' ' :: ']' :: tail)))) =
        some (v :: vs, tail)
  | [], v, fuel, tail, h => by
    obtain ⟨f, rfl⟩ : ∃ f, fuel = f + 1 :=
      ⟨fuel - 1, by simp only [itemsFuel] at h; omega⟩
    have hv : v.data.length < f := by simp only [itemsFuel] at h; omega
    show parseArrayItems (f + 1)
        (encodeStringChars v ++ ('\n' :: ' ' :: ' ' :: ']' :: tail)) = some ([v], tail)
    simp only [parseArrayItems]
    rw [parseJString_roundtrip v f _ hv]
    rfl
  | v2 :: vs2, v, fuel, tail, h => by
    obtain ⟨f, rfl⟩ : ∃ f, fuel = f + 1 :=
      ⟨fuel - 1, by simp only [itemsFuel] at h; omega⟩
    have hv : v.data.length < f := by simp only [itemsFuel] at h; omega
    have hrest : itemsFuel (v2 :: vs2) ≤ f := by
      simp only [itemsFuel] at h ⊢
      omega
    have ih := parseArrayItems_roundtrip vs2 v2 f tail hrest
    show parseArrayItems (f + 1)
        (encodeStringChars v ++
          (',' :: '\n' :: (encodeItems (v2 :: vs2) ++ ('\n' :: ' ' :: ' ' :: ']' :: tail)))) =
      some (v :: v2 :: vs2, tail)
    simp only [parseArrayItems]
    rw [parseJString_roundtrip v f _ hv]
    show (match parseArrayItems f
            (skipWs ('\n' ::
              (encodeItems (v2 :: vs2) ++ ('\n' :: ' ' :: ' ' :: ']' :: tail)))) with
          | some pr => some (v :: pr.1, pr.2)
          | none => none) = some (v :: v2 :: vs2, tail)
    rw [skipWs_encodeItems, ih]

theorem parseArray_roundtrip (vs : List String) (fuel : Nat) (tail : List Char)
    (h : itemsFuel vs ≤ fuel) :
    parseArray fuel (encodeArray vs ++ tail) = some (vs, tail) := by
  cases vs with
  | nil => rfl
  | cons v vs2 =>
    have harr := parseArrayItems_roundtrip vs2 v fuel tail h
    cases vs2 with
    | nil =>
      show parseArrayItems fuel
          (skipWs ('\n' :: ((encodeItems [v] ++ ['\n', ' ', ' ', ']']) ++ tail))) =
        some ([v], tail)
      rw [List.append_assoc]
      simp only [List.cons_append, List.nil_append]
      rw [skipWs_encodeItems]
      exact harr
    | cons v2 vs3 =>
      show parseArrayItems fuel
          (skipWs ('\n' :: ((encodeItems (v :: v2 :: vs3) ++ ['\n', ' ', ' ', ']']) ++ tail))) =
        some (v :: v2 :: vs3, tail)
      rw [List.append_assoc]
      simp only [List.cons_append, List.nil_append]
      rw [skipWs_encodeItems]
      exact harr

theorem skipWs_encodeMembersTail (ms : List (String × List String)) (k : String)
    (vs : List String) (X : List Char) :
    skipWs ('\n' :: ' ' :: ' ' :: (encodeMembersTail ((k, vs) :: ms) ++ X)) =
      encodeStringChars k ++ (':' :: ' ' :: (encodeArray vs ++
        (match ms with
         | [] => X
         | _ => ',' :: '\n' :: ' ' :: ' ' :: (encodeMembersTail ms ++ X)))) := by
  cases ms with
  | nil =>
    have h1 : skipWs ('\n' :: ' ' :: ' ' :: (encodeMembersTail [(k, vs)] ++ X)) =
        (encodeStringChars k ++ (':' :: ' ' :: encodeArray vs)) ++ X := rfl
    rw [h1, List.append_assoc]
    rfl
  | cons m3 ms3 =>
    have h1 : skipWs ('\n' :: ' ' :: ' ' :: (encodeMembersTail ((k, vs) :: m3 :: ms3) ++ X)) =
        ((encodeStringChars k ++ (':' :: ' ' :: encodeArray vs)) ++
          (',' :: '\n' :: ' ' :: ' ' :: encodeMembersTail (m3 :: ms3))) ++ X := rfl
    rw [h1, List.append_assoc, List.append_assoc]
    rfl

theorem parseMembers_roundtrip :
    ∀ (ms : List (String × List String)) (k : String) (vs : List String) (fuel : Nat)
      (tail : List Char),
      tableFuel ((k, vs) :: ms) ≤ fuel →
      parseMembers fuel
        (encodeStringChars k ++ (':' :: ' ' :: (encodeArray vs ++
          (match ms with
           | [] => '\n' :: '}' :: tail
           | _ => ',' :: '\n' :: ' ' :: ' ' ::
               (encodeMembersTail ms ++ ('\n' :: '}' :: tail)))))) =
        some ((k, vs) :: ms, tail)
  | [], k, vs, fuel, tail, h => by
    obtain ⟨f, rfl⟩ : ∃ f, fuel = f + 1 :=
      ⟨fuel - 1, by simp only [tableFuel] at h; omega⟩
    have hk : k.data.length < f := by simp only [tableFuel] at h; omega
    have hvs : itemsFuel vs ≤ f := by simp only [tableFuel] at h; omega
    show parseMembers (f + 1)
        (encodeStringChars k ++ (':' :: ' ' :: (encodeArray vs ++ ('\n' :: '}' :: tail)))) =
      some ([(k, vs)], tail)
    simp only [parseMembers]
    rw [parseJString_roundtrip k f _ hk]
    have ha : parseArray f (skipWs (' ' :: (encodeArray vs ++ ('\n' :: '}' :: tail)))) =
        some (vs, '\n' :: '}' :: tail) := by
      rw [skipWs_space_encodeArray]
      exact parseArray_roundtrip vs f _ hvs
    show (match parseArray f (skipWs (' ' :: (encodeArray vs ++ ('\n' :: '}' :: tail)))) with
          | none => none
          | some (vs2, rest2) =>
            match skipWs rest2 with
            | ',' :: rest3 =>
              match parseMembers f (skipWs rest3) with
              | some pr => some ((k, vs2) :: pr.1, pr.2)
              | none => none
            | '}' :: rest3 => some ([(k, vs2)], rest3)
            | _ => none) = some ([(k, vs)], tail)
    rw [ha]
    rfl
  | m2 :: ms2, k, vs, fuel, tail, h => by
    obtain ⟨k2, vs2⟩ := m2
    obtain ⟨f, rfl⟩ : ∃ f, fuel = f + 1 :=
      ⟨fuel - 1, by simp only [tableFuel] at h; omega⟩
    have hk : k.data.length < f := by simp only [tableFuel] at h; omega
    have hvs : itemsFuel vs ≤ f := by simp only [tableFuel] at h; omega
    have hms : tableFuel ((k2, vs2) :: ms2) ≤ f := by
      simp only [tableFuel] at h ⊢
      omega
    have ih := parseMembers_roundtrip ms2 k2 vs2 f tail hms
    show parseMembers (f + 1)
        (encodeStringChars k ++ (':' :: ' ' :: (encodeArray vs ++
          (',' :: '\n' :: ' ' :: ' ' ::
            (encodeMembersTail ((k2, vs2) :: ms2) ++ ('\n' :: '}' :: tail)))))) =
      some ((k, vs) :: (k2, vs2) :: ms2, tail)
    simp only [parseMembers]
    rw [parseJString_roundtrip k f _ hk]
    have ha : parseArray f (skipWs (' ' :: (encodeArray vs ++
        (',' :: '\n' :: ' ' :: ' ' ::
          (encodeMembersTail ((k2, vs2) :: ms2) ++ ('\n' :: '}' :: tail)))))) =
        some (vs, ',' :: '\n' :: ' ' :: ' ' ::
          (encodeMembersTail ((k2, vs2) :: ms2) ++ ('\n' :: '}' :: tail))) := by
      rw [skipWs_space_encodeArray]
      exact parseArray_roundtrip vs f _ hvs
    show (match parseArray f (skipWs (' ' :: (encodeArray vs ++
            (',' :: '\n' :: ' ' :: ' ' ::
              (encodeMembersTail ((k2, vs2) :: ms2) ++ ('\n' :: '}' :: tail)))))) with
          | none => none
          | some (vs3, rest2) =>
            match skipWs rest2 with
            | ',' :: rest3 =>
              match parseMembers f (skipWs rest3) with
              | some pr => some ((k, vs3) :: pr.1, pr.2)
              | none => none
            | '}' :: rest3 => some ([(k, vs3)], rest3)
            | _ => none) = some ((k, vs) :: (k2, vs2) :: ms2, tail)
    rw [ha]
    show (match parseMembers f
            (skipWs ('\n' :: ' ' :: ' ' ::
              (encodeMembersTail ((k2, vs2) :: ms2) ++ ('\n' :: '}' :: tail)))) with
          | some pr => some ((k, vs) :: pr.1, pr.2)
          | none => none) = some ((k, vs) :: (k2, vs2) :: ms2, tail)
    rw [skipWs_encodeMembersTail, ih]

theorem parseTable_roundtrip (t : List (String × List String)) (fuel : Nat)
    (tail : List Char) (h : tableFuel t ≤ fuel) :
    parseTable fuel (encodeTable t ++ tail) = some (t, tail) := by
  cases t with
  | nil => rfl
  | cons m ms =>
    obtain ⟨k, vs⟩ := m
    have hmem := parseMembers_roundtrip ms k vs fuel tail h
    cases ms with
    | nil =>
      show parseMembers fuel
          (skipWs ('\n' :: ' ' :: ' ' ::
            ((encodeMembersTail [(k, vs)] ++ ['\n', '}']) ++ tail))) =
        some ([(k, vs)], tail)
      rw [List.append_assoc]
      simp only [List.cons_append, List.nil_append]
      rw [skipWs_encodeMembersTail]
      exact hmem
    | cons m2 ms2 =>
      show parseMembers fuel
          (skipWs ('\n' :: ' ' :: ' ' ::
            ((encodeMembersTail ((k, vs) :: m2 :: ms2) ++ ['\n', '}']) ++ tail))) =
        some ((k, vs) :: m2 :: ms2, tail)
      rw [List.append_assoc]
      simp only [List.cons_append, List.nil_append]
      rw [skipWs_encodeMembersTail]
      exact hmem

theorem one_le_length_escapeChar (c : Char) : 1 ≤ (escapeChar c).length := by
  unfold escapeChar
  split_ifs <;> simp

theorem le_length_flatten_escape (cs : List Char) :
    cs.length ≤ ((cs.map escapeChar).flatten).length := by
  induction cs with
  | nil => simp
  | cons c cs ih =>
    simp only [List.map_cons, List.flatten_cons, List.length_append, List.length_cons]
    have := one_le_length_escapeChar c
    omega

theorem le_length_encodeStringChars (s : String) :
    s.data.length + 2 ≤ (encodeStringChars s).length := by
  simp only [encodeStringChars, List.length_cons, List.length_append, List.length_singleton]
  have := le_length_flatten_escape s.data
  omega

theorem itemsFuel_le_length : ∀ vs : List String, itemsFuel vs ≤ (encodeItems vs).length
  | [] => by simp [itemsFuel, encodeItems]
  | [v] => by
    simp only [itemsFuel, encodeItems, List.length_cons]
    have := le_length_encodeStringChars v
    omega
  | v :: v2 :: vs => by
    have ih := itemsFuel_le_length (v2 :: vs)
    simp only [itemsFuel] at ih
    simp only [itemsFuel, encodeItems, List.length_cons, List.length_append]
    have := le_length_encodeStringChars v
    omega

theorem itemsFuel_le_length_encodeArray (vs : List String) :
    itemsFuel vs ≤ (encodeArray vs).length := by
  cases vs with
  | nil => simp [itemsFuel, encodeArray]
  | cons v vs2 =>
    have h1 := itemsFuel_le_length (v :: vs2)
    have h2 : (encodeArray (v :: vs2)).length =
        2 + (encodeItems (v :: vs2)).length + 4 := by
      show ('[' :: '\n' :: (encodeItems (v :: vs2) ++ ['\n', ' ', ' ', ']'])).length = _
      simp only [List.length_cons, List.length_append]
      simp
      omega
    omega

theorem tableFuel_le_length :
    ∀ t : List (String × List String), tableFuel t ≤ (encodeMembersTail t).length + 2
  | [] => by simp [tableFuel, encodeMembersTail]
  | [(k, vs)] => by
    simp only [tableFuel, encodeMembersTail, List.length_append, List.length_cons]
    have h1 := le_length_encodeStringChars k
    have h2 := itemsFuel_le_length_encodeArray vs
    omega
  | (k, vs) :: (k2, vs2) :: ms => by
    have ih := tableFuel_le_length ((k2, vs2) :: ms)
    simp only [tableFuel] at ih
    simp only [tableFuel, encodeMembersTail, List.length_append, List.length_cons]
    have h1 := le_length_encodeStringChars k
    have h2 := itemsFuel_le_length_encodeArray vs
    omega

theorem tableFuel_le_length_encodeTable (t : List (String × List String)) :
    tableFuel t ≤ (encodeTable t).length + 2 := by
  cases t with
  | nil => simp [tableFuel, encodeTable]
  | cons m ms =>
    have h1 := tableFuel_le_length (m :: ms)
    have h2 : (encodeTable (m :: ms)).length =
        4 + (encodeMembersTail (m :: ms)).length + 2 := by
      show ('{' :: '\n' :: ' ' :: ' ' ::
        (encodeMembersTail (m :: ms) ++ ['\n', '}'])).length = _
      simp only [List.length_cons, List.length_append]
      simp
      omega
    omega

/-! ### Claim theorems -/

/-- C1, counterexample: `postprocess` does not discard a pair whose
translation list is empty — on the raw input `{"a": []}` it keeps the pair,
so its output contains an empty value sequence. -/
theorem empty_translations_retained_counterexample :
    ¬ (∀ q ∈ postprocess [(("a" : String), ([] : List String))], q.2 ≠ []) := by decide

/-- C1 (amended): the empty-translation-list filter lives in the dump
routine, not in `postprocess`: the dump routine never emits a pair with an
empty string list, and `postprocess` passes value lists through unchanged,
so in the composed pipeline every value sequence of the normalized table is
non-empty. -/
theorem pipeline_value_sequences_nonempty (pairs : List (String × List String))
    (q : String × List String) (hq : q ∈ postprocess (dumpTable pairs)) :
    q.2 ≠ [] := by
  rcases postprocess_source hq with ⟨p, hp, _, hq2, _⟩
  rw [hq2]
  exact dumpTable_values_nonempty hp

theorem pipeline_value_sequences_nonempty_witness :
    (("to", ["→"]) : String × List String) ∈ postprocess (dumpTable [("\\to", ["→"])]) ∧
    (("to", ["→"]) : String × List String).2 ≠ [] :=
  ⟨by decide, pipeline_value_sequences_nonempty [("\\to", ["→"])] ("to", ["→"]) (by decide)⟩

/-- C3, counterexample: the decoration-strip step is not idempotent on every
key — on the key `\\` (two backslashes) one application leaves `\` and a
second application strips again, yielding the empty string. -/
theorem stripKey_not_idempotent_counterexample :
    stripKey (stripKey "\\\\") ≠ stripKey "\\\\" := by decide

/-- C3 (amended): the decoration-strip step is idempotent on every key that
does not begin with two backslash characters. -/
theorem stripKey_idempotent_unless_double_backslash (k : String)
    (h : k.data.take 2 ≠ ['\\', '\\']) :
    stripKey (stripKey k) = stripKey k := by
  rcases hdata : k.data with _ | ⟨c, tl⟩
  · have h0 : stripKey k = k :=
      stripKey_of_no_backslash (fun tl3 h' => by rw [hdata] at h'; cases h')
    rw [h0, h0]
  · by_cases hc : c = '\\'
    · subst hc
      have h1 : stripKey k = String.mk tl := stripKey_of_backslash hdata
      rcases htl : tl with _ | ⟨c2, tl2⟩
      · subst htl
        rw [h1]
        exact stripKey_of_no_backslash (fun tl3 h' => by cases h')
      · have hc2 : c2 ≠ '\\' := by
          intro h2
          exact h (by rw [hdata, htl, h2]; rfl)
        subst htl
        rw [h1]
        refine stripKey_of_no_backslash ?_
        intro tl3 h'
        have h'' : c2 :: tl2 = '\\' :: tl3 := h'
        injection h'' with he _
        exact hc2 he
    · have h0 : stripKey k = k :=
        stripKey_of_no_backslash (fun tl3 h' => by
          rw [hdata] at h'
          injection h' with he _
          exact hc he)
      rw [h0, h0]

theorem stripKey_idempotent_witness :
    ("\\to" : String).data.take 2 ≠ ['\\', '\\'] ∧
    stripKey (stripKey "\\to") = stripKey "\\to" :=
  ⟨by decide, stripKey_idempotent_unless_double_backslash "\\to" (by decide)⟩

/-- C4, counterexample: stripping does not keep pairwise-distinct raw keys
distinct — the raw keys `x` and `\x` are different, yet both strip to `x`,
and on that raw mapping `postprocess` collapses the two pairs into one
(the later pair wins). -/
theorem distinct_keys_collapse_counterexample :
    (List.map Prod.fst [(("x" : String), (["α"] : List String)), ("\\x", ["β"])]).Nodup ∧
    ¬ (List.map (fun p => stripKey p.1)
        [(("x" : String), (["α"] : List String)), ("\\x", ["β"])]).Nodup ∧
    postprocess [("x", ["α"]), ("\\x", ["β"])] = [("x", ["β"])] := by decide

/-- C4 (amended): stripping may collapse distinct raw keys onto one
normalized key (the dict assignment keeps the last value); nevertheless the
final table's keys are always pairwise distinct and strictly sorted in
ascending lexicographic order, for every raw input. -/
theorem postprocess_keys_strictly_sorted (raw : List (String × List String)) :
    ((postprocess raw).map Prod.fst).Pairwise (· < ·) := by
  have hsorted : List.Sorted keyLe (postprocess raw) := List.sorted_insertionSort keyLe _
  have hle : ((postprocess raw).map Prod.fst).Pairwise (· ≤ ·) := by
    rw [List.pairwise_map]
    exact hsorted
  have hperm : List.Perm ((postprocess raw).map Prod.fst) ((cleanedOf raw).map Prod.fst) :=
    (perm_postprocess_cleanedOf raw).map Prod.fst
  have hnd : ((postprocess raw).map Prod.fst).Nodup :=
    hperm.nodup_iff.mpr (nodup_keys_cleanedOf raw)
  exact (hle.and hnd).imp (fun h => lt_iff_le_and_ne.mpr h)

/-- C5, counterexample: the normalizer does not deduplicate translation
lists — a raw value with a repeated translation string survives unchanged,
duplicates included. -/
theorem normalizer_no_dedup_counterexample :
    ¬ (∀ q ∈ postprocess [(("x" : String), ["α", "α"])], q.2.Nodup) := by decide

/-- C5 (amended): `postprocess` retains each pair's translation list
unchanged (same list, same relative order, no deduplication): every pair of
the normalized table carries exactly the value list of some raw pair whose
stripped key is its key. -/
theorem postprocess_values_unchanged (raw : List (String × List String))
    (q : String × List String) (hq : q ∈ postprocess raw) :
    ∃ p ∈ raw, q.1 = stripKey p.1 ∧ q.2 = p.2 := by
  rcases postprocess_source hq with ⟨p, hp, h1, h2, _⟩
  exact ⟨p, hp, h1, h2⟩

theorem postprocess_values_unchanged_witness :
    (("x", ["α", "α"]) : String × List String) ∈ postprocess [("x", ["α", "α"])] ∧
    ∃ p ∈ [(("x" : String), (["α", "α"] : List String))],
      ("x" : String) = stripKey p.1 ∧ (["α", "α"] : List String) = p.2 :=
  ⟨by decide, postprocess_values_unchanged [("x", ["α", "α"])] ("x", ["α", "α"]) (by decide)⟩

/-- C6: a raw entry whose every candidate translation is a single printable
ASCII character (code point `0x20`–`0x7e`) is filtered out by the dump
routine, exhaustively: if every raw pair carrying a given key has only such
candidates, that key is absent from the dumped table. -/
theorem dump_filters_allAscii_entries (pairs : List (String × List String)) (k : String)
    (h : ∀ p ∈ pairs, p.1 = k → p.2.all isSinglePrintableAscii = true) :
    k ∉ (dumpTable pairs).map Prod.fst := by
  intro hmem
  rcases List.mem_map.mp hmem with ⟨q, hq, hfst⟩
  rcases mem_dumpFold pairs [] q hq with h' | ⟨p, hp, h'⟩
  · cases h'
  · have hk : q.1 = p.1 := by rw [dumpEntry_key h']
    have hnone : dumpEntry p.1 p.2 = none :=
      dumpEntry_none_of_all_ascii (h p hp (by rw [← hk, hfst]))
    rw [hnone] at h'
    cases h'

theorem dump_filters_allAscii_entries_witness :
    (∀ p ∈ [(("\\a" : String), (["a"] : List String))],
      p.1 = "\\a" → p.2.all isSinglePrintableAscii = true) ∧
    "\\a" ∉ (dumpTable [("\\a", ["a"])]).map Prod.fst :=
  ⟨by decide, dump_filters_allAscii_entries [("\\a", ["a"])] "\\a" (by decide)⟩

/-- C7: a key that is empty or consists solely of (Python) whitespace after
stripping — a single space or a no-break space, for example — never appears
among the keys of the normalized output, whatever the raw input was. -/
theorem whitespaceOnly_keys_never_output (raw : List (String × List String)) (s : String)
    (h : ∀ c ∈ s.data, pyIsSpace c = true) :
    s ∉ (postprocess raw).map Prod.fst := by
  intro hmem
  rcases List.mem_map.mp hmem with ⟨q, hq, hfst⟩
  rcases postprocess_source hq with ⟨p, _, _, _, hkeep⟩
  rw [hfst, keepKey_eq_false_of_space h] at hkeep
  cases hkeep

theorem string_eq_empty_of_data_nil {s : String} (h : s.data = []) : s = "" :=
  congrArg String.mk h

/-- C9: the invoker fails with `engineNoOutput` exactly when the captured
standard output is empty after trimming, and the outcome is entirely
independent of the engine's exit status — a non-zero exit status with
non-empty output does not by itself cause any failure. -/
theorem engineNoOutput_iff_empty_stdout (returncode : Int) (stdout stderr : String) :
    (handleEngineOutput returncode stdout stderr = InvokeOutcome.engineNoOutput ↔
      pyStrip stdout = "") ∧
    ∀ rc2 : Int, handleEngineOutput returncode stdout stderr =
      handleEngineOutput rc2 stdout stderr := by
  refine ⟨?_, fun _ => rfl⟩
  simp only [handleEngineOutput]
  by_cases h : (pyStrip stdout).data.isEmpty = true
  · rw [if_pos h]
    simp only [true_iff]
    exact string_eq_empty_of_data_nil (by simpa using h)
  · rw [if_neg h]
    constructor
    · intro heq
      cases hp : parseArtifact (pyStrip stdout) with
      | some t => rw [hp] at heq; cases heq
      | none => rw [hp] at heq; cases heq
    · intro heq
      exact absurd (by rw [heq]; rfl) h

/-- C10: on every execution path of the invoker — timeout or completed run,
and whatever the completed run's output leads to (success, empty output, or
parse failure) — the transient dump-routine file is unlinked, so it does
not exist once the invoker is done. -/
theorem temp_file_removed_on_all_paths (res : EngineResult) :
    tempFileAlive (invokerTrace res).1 = false ∧
    FsEvent.unlinkTemp ∈ (invokerTrace res).1 := by
  cases res with
  | timeout => exact ⟨rfl, by decide⟩
  | completed rc out err =>
    exact ⟨rfl, show FsEvent.unlinkTemp ∈ [FsEvent.createTemp, FsEvent.unlinkTemp] by decide⟩

/-- C2, counterexample: a filesystem error while writing leaves a truncated
file — with empty raw input and a write that fails after one character, the
run fails but the output path holds `{`, which is neither the prior content
(absent) nor the complete artifact. -/
theorem truncated_output_counterexample :
    (mainModel false [] (some 1) none).2 = false ∧
    (mainModel false [] (some 1) none).1 ≠ none ∧
    (mainModel false [] (some 1) none).1 ≠ some (serializeArtifact (postprocess [])) := by
  decide

/-- C2 (amended): the artifact is computed fully in memory before the output
path is opened, so every failure before the write leaves the output path
untouched, and a write that completes stores exactly the full artifact; but
`main` opens the output file directly (no temporary-file-and-rename), so a
filesystem error during the write itself can leave a truncated file. -/
theorem pre_write_failures_leave_output_untouched (preWriteFailure : Bool)
    (raw : List (String × List String)) (failAfter : Option Nat) (fs : Option String) :
    (preWriteFailure = true → mainModel preWriteFailure raw failAfter fs = (fs, false)) ∧
    (failAfter = none → preWriteFailure = false →
      mainModel preWriteFailure raw failAfter fs =
        (some (serializeArtifact (postprocess raw)), true)) := by
  constructor
  · intro h
    simp [mainModel, h]
  · intro h1 h2
    simp [mainModel, h2, writeArtifact, h1]

theorem pre_write_failures_leave_output_untouched_witness :
    mainModel true [("\\to", ["→"])] none (some "old") = (some "old", false) ∧
    mainModel false [("\\to", ["→"])] none (some "old") =
      (some (serializeArtifact (postprocess [("\\to", ["→"])])), true) :=
  ⟨(pre_write_failures_leave_output_untouched true [("\\to", ["→"])] none (some "old")).1 rfl,
   (pre_write_failures_leave_output_untouched false [("\\to", ["→"])] none (some "old")).2
     rfl rfl⟩

theorem whitespaceOnly_keys_never_output_witness :
    (∀ c ∈ (" " : String).data, pyIsSpace c = true) ∧
    " " ∉ (postprocess [("\\ ", ["x"])]).map Prod.fst :=
  ⟨by decide, whitespaceOnly_keys_never_output [("\\ ", ["x"])] " " (by decide)⟩

/-- C8: serializing a NormalizedTable (whose keys, by its invariant, are
strictly sorted) to the artifact text — UTF-8 with non-ASCII preserved
literally, two-space indentation, keys sorted, one trailing newline — and
parsing that text back yields exactly the table that was serialized. -/
theorem serialize_parse_roundtrip (t : List (String × List String))
    (h : (t.map Prod.fst).Pairwise (· < ·)) :
    parseArtifact (serializeArtifact t) = some t := by
  have hsorted : List.Sorted keyLe t :=
    (List.pairwise_map.mp h).imp (fun hab => le_of_lt hab)
  have hsort : List.insertionSort keyLe t = t := hsorted.insertionSort_eq
  unfold serializeArtifact parseArtifact
  rw [hsort]
  have hdata : (String.mk (encodeTable t ++ ['\n'])).data = encodeTable t ++ ['\n'] := rfl
  rw [hdata]
  have hskip : skipWs (encodeTable t ++ ['\n']) = encodeTable t ++ ['\n'] := by
    cases t with
    | nil => rfl
    | cons m ms => rfl
  rw [hskip]
  have hfuel : tableFuel t ≤ (encodeTable t ++ ['\n']).length + 1 := by
    have h1 := tableFuel_le_length_encodeTable t
    simp only [List.length_append, List.length_singleton]
    omega
  rw [parseTable_roundtrip t _ ['\n'] hfuel]
  rfl

theorem serialize_parse_roundtrip_witness :
    (([("to", ["→"])] : List (String × List String)).map Prod.fst).Pairwise (· < ·) ∧
    parseArtifact (serializeArtifact [("to", ["→"])]) = some [("to", ["→"])] :=
  ⟨by simp, serialize_parse_roundtrip [("to", ["→"])] (by simp)⟩
